import Mathlib

/-!
Shallow embedding of `flowcontrol` (flowcontrol.go, io.go): a transfer-rate
monitor and limiter.

Modelling conventions:
* `time.Duration` (int64 nanoseconds) is modelled as `ℤ` nanoseconds; the Go
  clock is nondeterministic, so every operation takes the current `clock()`
  value `now : ℤ` explicitly.
* `float64` arithmetic on rates is modelled over `ℚ`; `math.Exp` is abstracted
  as an explicit function parameter `expf : ℚ → ℚ` threaded through the
  operations (`Real.exp` is noncomputable, and the claims hold for every
  plausible `expf`, constrained by bounds that the real exponential satisfies).
* Go's `int`/`int64` are modelled as `ℤ` (no overflow modelling).
* `clockToTime` adds the constant process epoch `czero`; the `Start` field is
  kept as the raw `m.start` timestamp since no claim inspects the epoch shift.
* The mutex is elided: every public operation is modelled as the whole
  critical section, a function from pre-state to post-state.
* The blocking wait in `Limit`/`waitNextSample` sleeps and re-reads the clock;
  this is modelled by an explicit list `wakes : List ℤ` of the clock values
  seen at successive wake-ups.
-/

namespace Flowcontrol

/-- `clockRate = 20ms` in nanoseconds (flowcontrol.go line 16). -/
def clockRate : ℤ := 20000000

/-- `clockRound` (flowcontrol.go lines 33–35): `(d + clockRate>>1) / clockRate
* clockRate`; Go `int64` division truncates toward zero, i.e. `Int.tdiv`. -/
def clockRound (d : ℤ) : ℤ :=
  Int.tdiv (d + Int.tdiv clockRate 2) clockRate * clockRate

/-- `time.Duration.Seconds()`: nanoseconds to seconds. -/
def secondsQ (d : ℤ) : ℚ := (d : ℚ) / 1000000000

/-- The integer part of `math.Modf`: truncation toward zero. -/
def qtrunc (x : ℚ) : ℤ := if 0 ≤ x then ⌊x⌋ else ⌈x⌉

/-- `round` (flowcontrol.go lines 38–43): `frac := x - trunc x`; if
`frac ≥ 0.5` then `Ceil x` else `Floor x`. -/
def goRound (x : ℚ) : ℤ :=
  if (1 : ℚ)/2 ≤ x - (qtrunc x : ℚ) then ⌈x⌉ else ⌊x⌋

/-- The `Monitor` struct (flowcontrol.go lines 46–62), minus the mutex. -/
structure Monitor where
  active  : Bool
  start   : ℤ
  bytes   : ℤ
  samples : ℤ
  rSample : ℚ
  rEMA    : ℚ
  rPeak   : ℚ
  rWindow : ℚ
  sBytes  : ℤ
  sLast   : ℤ
  sRate   : ℤ
deriving DecidableEq

/-- `New` (flowcontrol.go lines 76–91), with the `clock()` reading passed as
`now`. -/
def Monitor.new (sampleRate windowSize now : ℤ) : Monitor :=
  let sr0 := clockRound sampleRate
  let sr := if sr0 ≤ 0 then 5 * clockRate else sr0
  let ws := if windowSize ≤ 0 then 1000000000 else windowSize
  { active := true, start := now, bytes := 0, samples := 0,
    rSample := 0, rEMA := 0, rPeak := 0, rWindow := secondsQ ws,
    sBytes := 0, sLast := now, sRate := sr }

/-- `reset` (flowcontrol.go lines 231–236). -/
def Monitor.reset (m : Monitor) (sampleTime : ℤ) : Monitor :=
  { m with bytes := m.bytes + m.sBytes, samples := m.samples + 1,
           sBytes := 0, sLast := sampleTime }

/-- `update` (flowcontrol.go lines 205–228). Returns the new state and the
`now` value the Go code returns (`0` when inactive). -/
def Monitor.update (expf : ℚ → ℚ) (m : Monitor) (n now : ℤ) : Monitor × ℤ :=
  if m.active = false then (m, 0)
  else
    let m1 := { m with sBytes := m.sBytes + n }
    if m.sRate ≤ now - m.sLast then
      let t := secondsQ (now - m.sLast)
      let rS := (m1.sBytes : ℚ) / t
      let rP := if m.rPeak < rS then rS else m.rPeak
      let rE := if 0 < m.samples then rS + expf (-(t / m.rWindow)) * (m.rEMA - rS)
                else rS
      (Monitor.reset { m1 with rSample := rS, rEMA := rE, rPeak := rP } now, now)
    else (m1, now)

/-- `Done` (flowcontrol.go lines 111–120): one `update(0)`, a forced `reset`
when bytes are still pending, deactivation, and the lifetime byte count. -/
def Monitor.done (expf : ℚ → ℚ) (m : Monitor) (now : ℤ) : Monitor × ℤ :=
  let u := m.update expf 0 now
  let m2 := if 0 < u.1.sBytes then u.1.reset u.2 else u.1
  let m3 := { m2 with active := false }
  (m3, m3.bytes)

/-- The `Status` struct (flowcontrol.go lines 124–134); `Start` and `Duration`
are kept in nanoseconds. -/
structure StatusRec where
  Active   : Bool
  Start    : ℤ
  Duration : ℤ
  Bytes    : ℤ
  Samples  : ℤ
  InstRate : ℤ
  CurRate  : ℤ
  AvgRate  : ℤ
  PeakRate : ℤ
deriving DecidableEq

/-- `Status` (flowcontrol.go lines 138–158): an `update(0)`, then the snapshot;
`InstRate`/`CurRate` are filled only while active, `AvgRate` only when the
duration is positive. -/
def Monitor.statusOp (expf : ℚ → ℚ) (m : Monitor) (now : ℤ) :
    Monitor × StatusRec :=
  let m1 := (m.update expf 0 now).1
  let s0 : StatusRec :=
    { Active := m1.active, Start := m1.start, Duration := m1.sLast - m1.start,
      Bytes := m1.bytes, Samples := m1.samples, InstRate := 0, CurRate := 0,
      AvgRate := 0, PeakRate := goRound m1.rPeak }
  let s1 := if m1.active = true then
      { s0 with InstRate := goRound m1.rSample, CurRate := goRound m1.rEMA }
    else s0
  let s2 := if 0 < s1.Duration then
      { s1 with AvgRate := goRound ((s1.Bytes : ℚ) / secondsQ s1.Duration) }
    else s1
  (m1, s2)

/-- The per-sample byte budget computed by `Limit` (flowcontrol.go lines
178–181): `round(rate * sRate.Seconds())`, floored to a minimum of `1`. -/
def budget (rate sRate : ℤ) : ℤ :=
  let l := goRound ((rate : ℚ) * secondsQ sRate)
  if l ≤ 0 then 1 else l

/-- The combined wait loop of `Limit`/`waitNextSample` (flowcontrol.go lines
184–188 and 241–257): while `sBytes ≥ limit` and the monitor is active, sleep
and run `update(0)` at the next wake-up clock value. -/
def blockLoop (expf : ℚ → ℚ) (lim : ℤ) : Monitor → List ℤ → Monitor
  | m, [] => m
  | m, t :: ts =>
      if lim ≤ m.sBytes ∧ m.active = true then
        blockLoop expf lim ((m.update expf 0 t).1) ts
      else m

/-- `Limit` (flowcontrol.go lines 171–200). `wakes` is only consulted when
`block = true`. -/
def Monitor.limit (expf : ℚ → ℚ) (m : Monitor) (want rate : ℤ) (block : Bool)
    (now : ℤ) (wakes : List ℤ) : Monitor × ℤ :=
  if want < 1 ∨ rate < 1 then (m, want)
  else
    let lim := budget rate m.sRate
    let m1 := (m.update expf 0 now).1
    let m2 := if block then blockLoop expf lim m1 wakes else m1
    let l2 := lim - m2.sBytes
    let l3 := if want < l2 ∨ m2.active = false then want else l2
    (m2, if l3 < 0 then 0 else l3)

/-! ### Trace machinery

A trace is a list of public operations, each tagged with the `clock()` value
observed inside its critical section. `run` executes a trace from a state. -/

/-- One public Monitor operation together with the clock value it observes.
`lim` is the non-blocking `Limit` (`block = false`). -/
inductive Op where
  | upd (n t : ℤ)
  | stat (t : ℤ)
  | lim (want rate t : ℤ)
  | fin (t : ℤ)
deriving DecidableEq

/-- The state reached after one operation (return values discarded). -/
def step (expf : ℚ → ℚ) (m : Monitor) : Op → Monitor
  | .upd n t => (m.update expf n t).1
  | .stat t => (m.statusOp expf t).1
  | .lim w r t => (m.limit expf w r false t []).1
  | .fin t => (m.done expf t).1

/-- The state reached after a whole trace. -/
def run (expf : ℚ → ℚ) : Monitor → List Op → Monitor
  | m, [] => m
  | m, op :: ops => run expf (step expf m op) ops

/-- The byte count an operation passes to `update` (`0` for the others). -/
def Op.updVal : Op → ℤ
  | .upd n _ => n
  | .stat _ => 0
  | .lim _ _ _ => 0
  | .fin _ => 0

/-- Sum of all byte counts passed to `Update` in a trace. -/
def updSum (ops : List Op) : ℤ := (ops.map Op.updVal).sum

/-- An operation's `Update` argument is non-negative. -/
def Op.updOK : Op → Prop
  | .upd n _ => 0 ≤ n
  | .stat _ => True
  | .lim _ _ _ => True
  | .fin _ => True

/-- The operation is not `Done`. -/
def Op.noFin : Op → Prop
  | .upd _ _ => True
  | .stat _ => True
  | .lim _ _ _ => True
  | .fin _ => False

/-- Ghost specification of a rollover: the instantaneous rate `update n`
computes at clock `t` from state `m`, as a (zero- or one-element) list;
empty when no rollover is triggered. -/
def rolloverRates (m : Monitor) (n t : ℤ) : List ℚ :=
  if m.active = true ∧ m.sRate ≤ t - m.sLast then
    [((m.sBytes + n : ℤ) : ℚ) / secondsQ (t - m.sLast)]
  else []

/-- The instantaneous rates an operation's internal `update` call computes.
The non-blocking `Limit` skips its `update` entirely on the passthrough
branch. -/
def Op.rates (m : Monitor) : Op → List ℚ
  | .upd n t => rolloverRates m n t
  | .stat t => rolloverRates m 0 t
  | .lim w r t => if w < 1 ∨ r < 1 then [] else rolloverRates m 0 t
  | .fin t => rolloverRates m 0 t

/-- All instantaneous rates computed along a trace, in order. -/
def traceRates (expf : ℚ → ℚ) : Monitor → List Op → List ℚ
  | _, [] => []
  | m, op :: ops => op.rates m ++ traceRates expf (step expf m op) ops

/-! ### Equations for `update` -/

theorem update_inactive (expf : ℚ → ℚ) (m : Monitor) (n now : ℤ)
    (h : m.active = false) : m.update expf n now = (m, 0) := by
  unfold Monitor.update
  simp [h]

theorem update_no_roll (expf : ℚ → ℚ) (m : Monitor) (n now : ℤ)
    (h1 : m.active = true) (h2 : ¬ m.sRate ≤ now - m.sLast) :
    m.update expf n now = ({ m with sBytes := m.sBytes + n }, now) := by
  unfold Monitor.update
  simp [h1, h2]

theorem update_roll (expf : ℚ → ℚ) (m : Monitor) (n now : ℤ)
    (h1 : m.active = true) (h2 : m.sRate ≤ now - m.sLast) :
    m.update expf n now =
      ({ active := true, start := m.start, bytes := m.bytes + (m.sBytes + n),
         samples := m.samples + 1,
         rSample := ((m.sBytes + n : ℤ) : ℚ) / secondsQ (now - m.sLast),
         rEMA := if 0 < m.samples then
             ((m.sBytes + n : ℤ) : ℚ) / secondsQ (now - m.sLast) +
               expf (-(secondsQ (now - m.sLast) / m.rWindow)) *
                 (m.rEMA - ((m.sBytes + n : ℤ) : ℚ) / secondsQ (now - m.sLast))
           else ((m.sBytes + n : ℤ) : ℚ) / secondsQ (now - m.sLast),
         rPeak := if m.rPeak < ((m.sBytes + n : ℤ) : ℚ) / secondsQ (now - m.sLast)
           then ((m.sBytes + n : ℤ) : ℚ) / secondsQ (now - m.sLast)
           else m.rPeak,
         rWindow := m.rWindow, sBytes := 0, sLast := now,
         sRate := m.sRate }, now) := by
  unfold Monitor.update Monitor.reset
  simp [h1, h2]

/-! ### Derived facts about `update` -/

theorem update_fst_active (expf : ℚ → ℚ) (m : Monitor) (n now : ℤ) :
    ((m.update expf n now).1).active = m.active := by
  rcases Bool.eq_false_or_eq_true m.active with h | h
  · by_cases h2 : m.sRate ≤ now - m.sLast
    · rw [update_roll expf m n now h h2, h]
    · rw [update_no_roll expf m n now h h2]
  · rw [update_inactive expf m n now h]

theorem update_fst_sRate (expf : ℚ → ℚ) (m : Monitor) (n now : ℤ) :
    ((m.update expf n now).1).sRate = m.sRate := by
  rcases Bool.eq_false_or_eq_true m.active with h | h
  · by_cases h2 : m.sRate ≤ now - m.sLast
    · rw [update_roll expf m n now h h2]
    · rw [update_no_roll expf m n now h h2]
  · rw [update_inactive expf m n now h]

theorem update_fst_rWindow (expf : ℚ → ℚ) (m : Monitor) (n now : ℤ) :
    ((m.update expf n now).1).rWindow = m.rWindow := by
  rcases Bool.eq_false_or_eq_true m.active with h | h
  · by_cases h2 : m.sRate ≤ now - m.sLast
    · rw [update_roll expf m n now h h2]
    · rw [update_no_roll expf m n now h h2]
  · rw [update_inactive expf m n now h]

theorem update_fst_total (expf : ℚ → ℚ) (m : Monitor) (n now : ℤ)
    (h : m.active = true) :
    ((m.update expf n now).1).bytes + ((m.update expf n now).1).sBytes
      = m.bytes + m.sBytes + n := by
  by_cases h2 : m.sRate ≤ now - m.sLast
  · rw [update_roll expf m n now h h2]
    show m.bytes + (m.sBytes + n) + 0 = m.bytes + m.sBytes + n
    ring
  · rw [update_no_roll expf m n now h h2]
    show m.bytes + (m.sBytes + n) = m.bytes + m.sBytes + n
    ring

theorem update_fst_sBytes_nonneg (expf : ℚ → ℚ) (m : Monitor) (n now : ℤ)
    (hsb : 0 ≤ m.sBytes) (hn : 0 ≤ n) :
    0 ≤ ((m.update expf n now).1).sBytes := by
  rcases Bool.eq_false_or_eq_true m.active with h | h
  · by_cases h2 : m.sRate ≤ now - m.sLast
    · rw [update_roll expf m n now h h2]
    · rw [update_no_roll expf m n now h h2]
      exact add_nonneg hsb hn
  · rw [update_inactive expf m n now h]
    exact hsb

theorem update_fst_bytes_mono (expf : ℚ → ℚ) (m : Monitor) (n now : ℤ)
    (hsb : 0 ≤ m.sBytes) (hn : 0 ≤ n) :
    m.bytes ≤ ((m.update expf n now).1).bytes := by
  rcases Bool.eq_false_or_eq_true m.active with h | h
  · by_cases h2 : m.sRate ≤ now - m.sLast
    · rw [update_roll expf m n now h h2]
      show m.bytes ≤ m.bytes + (m.sBytes + n)
      omega
    · rw [update_no_roll expf m n now h h2]
  · rw [update_inactive expf m n now h]

theorem update_fst_rPeak (expf : ℚ → ℚ) (m : Monitor) (n now : ℤ) :
    ((m.update expf n now).1).rPeak
      = (rolloverRates m n now).foldl max m.rPeak := by
  rcases Bool.eq_false_or_eq_true m.active with h | h
  · by_cases h2 : m.sRate ≤ now - m.sLast
    · rw [update_roll expf m n now h h2]
      simp only [rolloverRates, h, h2, and_self, if_true, List.foldl_cons,
        List.foldl_nil]
      rcases le_or_lt (((m.sBytes + n : ℤ) : ℚ) / secondsQ (now - m.sLast))
          m.rPeak with hle | hlt
      · rw [if_neg (not_lt.mpr hle), max_eq_left hle]
      · rw [if_pos hlt, max_eq_right (le_of_lt hlt)]
    · rw [update_no_roll expf m n now h h2]
      simp [rolloverRates, h2]
  · rw [update_inactive expf m n now h]
    simp [rolloverRates, h]

theorem update_fst_rPeak_mono (expf : ℚ → ℚ) (m : Monitor) (n now : ℤ) :
    m.rPeak ≤ ((m.update expf n now).1).rPeak := by
  rw [update_fst_rPeak]
  unfold rolloverRates
  split
  · simp only [List.foldl_cons, List.foldl_nil]
    exact le_max_left m.rPeak _
  · simp

/-! ### Facts about `done` -/

theorem done_fst_active (expf : ℚ → ℚ) (m : Monitor) (now : ℤ) :
    ((m.done expf now).1).active = false := rfl

theorem done_snd (expf : ℚ → ℚ) (m : Monitor) (now : ℤ) :
    (m.done expf now).2 = ((m.done expf now).1).bytes := rfl

theorem done_fst_sBytes_nonpos (expf : ℚ → ℚ) (m : Monitor) (now : ℤ) :
    ((m.done expf now).1).sBytes ≤ 0 := by
  unfold Monitor.done
  rcases Bool.eq_false_or_eq_true m.active with h | h
  · by_cases h2 : m.sRate ≤ now - m.sLast
    · rw [update_roll expf m 0 now h h2]
      simp [Monitor.reset]
    · rw [update_no_roll expf m 0 now h h2]
      simp only [Monitor.reset]
      split
      · exact le_refl 0
      · next hs =>
          show m.sBytes + 0 ≤ 0
          revert hs
          show ¬ 0 < m.sBytes + 0 → m.sBytes + 0 ≤ 0
          omega
  · rw [update_inactive expf m 0 now h]
    simp only [Monitor.reset]
    split
    · exact le_refl 0
    · next hs =>
        show m.sBytes ≤ 0
        revert hs
        show ¬ 0 < m.sBytes → m.sBytes ≤ 0
        omega

theorem done_total (expf : ℚ → ℚ) (m : Monitor) (now : ℤ)
    (h : m.active = true) (hsb : 0 ≤ m.sBytes) :
    (m.done expf now).2 = m.bytes + m.sBytes := by
  unfold Monitor.done
  by_cases h2 : m.sRate ≤ now - m.sLast
  · rw [update_roll expf m 0 now h h2]
    simp [Monitor.reset]
  · rw [update_no_roll expf m 0 now h h2]
    simp only [Monitor.reset]
    split
    · show m.bytes + (m.sBytes + 0) = m.bytes + m.sBytes
      ring
    · next hs =>
        show m.bytes = m.bytes + m.sBytes
        revert hs
        show ¬ 0 < m.sBytes + 0 → m.bytes = m.bytes + m.sBytes
        omega

theorem done_fst_sRate (expf : ℚ → ℚ) (m : Monitor) (now : ℤ) :
    ((m.done expf now).1).sRate = m.sRate := by
  simp only [Monitor.done, Monitor.reset]
  split <;> simp [update_fst_sRate]

theorem done_fst_sBytes_nonneg (expf : ℚ → ℚ) (m : Monitor) (now : ℤ)
    (hsb : 0 ≤ m.sBytes) :
    0 ≤ ((m.done expf now).1).sBytes := by
  simp only [Monitor.done, Monitor.reset]
  split <;> simp [update_fst_sBytes_nonneg expf m 0 now hsb le_rfl]

theorem done_fst_bytes_mono (expf : ℚ → ℚ) (m : Monitor) (now : ℤ)
    (hsb : 0 ≤ m.sBytes) :
    m.bytes ≤ ((m.done expf now).1).bytes := by
  have h1 := update_fst_bytes_mono expf m 0 now hsb le_rfl
  simp only [Monitor.done, Monitor.reset]
  split
  · next hpos =>
      show m.bytes ≤ (m.update expf 0 now).1.bytes + (m.update expf 0 now).1.sBytes
      omega
  · exact h1

theorem done_fst_rPeak (expf : ℚ → ℚ) (m : Monitor) (now : ℤ) :
    ((m.done expf now).1).rPeak = (rolloverRates m 0 now).foldl max m.rPeak := by
  simp only [Monitor.done, Monitor.reset]
  split <;> simp [update_fst_rPeak]

/-! ### Facts about `Status` and non-blocking `Limit` as state transformers -/

theorem statusOp_fst (expf : ℚ → ℚ) (m : Monitor) (now : ℤ) :
    (m.statusOp expf now).1 = (m.update expf 0 now).1 := rfl

theorem limit_nb_fst (expf : ℚ → ℚ) (m : Monitor) (w r now : ℤ) :
    (m.limit expf w r false now []).1
      = if w < 1 ∨ r < 1 then m else (m.update expf 0 now).1 := by
  unfold Monitor.limit
  split <;> simp

/-! ### Per-operation step lemmas -/

theorem rolloverRates_nonneg (m : Monitor) (n t : ℤ)
    (hsb : 0 ≤ m.sBytes) (hn : 0 ≤ n) (hsr : 0 < m.sRate) :
    ∀ r ∈ rolloverRates m n t, 0 ≤ r := by
  unfold rolloverRates
  split
  · next hc =>
      intro r hr
      simp only [List.mem_singleton] at hr
      subst hr
      apply div_nonneg
      · push_cast
        exact_mod_cast add_nonneg hsb hn
      · unfold secondsQ
        apply div_nonneg _ (by norm_num)
        have : (0 : ℤ) ≤ t - m.sLast := le_trans (le_of_lt hsr) hc.2
        exact_mod_cast this
  · simp

theorem le_foldl_max (a : ℚ) (l : List ℚ) : a ≤ l.foldl max a := by
  induction l generalizing a with
  | nil => exact le_refl a
  | cons x l ih => exact le_trans (le_max_left a x) (ih (max a x))

theorem step_active (expf : ℚ → ℚ) (m : Monitor) (op : Op) (hnf : op.noFin) :
    (step expf m op).active = m.active := by
  cases op with
  | upd n t => exact update_fst_active expf m n t
  | stat t => rw [step, statusOp_fst]; exact update_fst_active expf m 0 t
  | lim w r t =>
      rw [step, limit_nb_fst]
      split
      · rfl
      · exact update_fst_active expf m 0 t
  | fin t => exact absurd hnf (by simp [Op.noFin])

theorem step_sRate (expf : ℚ → ℚ) (m : Monitor) (op : Op) :
    (step expf m op).sRate = m.sRate := by
  cases op with
  | upd n t => exact update_fst_sRate expf m n t
  | stat t => rw [step, statusOp_fst]; exact update_fst_sRate expf m 0 t
  | lim w r t =>
      rw [step, limit_nb_fst]
      split
      · rfl
      · exact update_fst_sRate expf m 0 t
  | fin t => exact done_fst_sRate expf m t

theorem step_total (expf : ℚ → ℚ) (m : Monitor) (op : Op)
    (hact : m.active = true) (hnf : op.noFin) :
    (step expf m op).bytes + (step expf m op).sBytes
      = m.bytes + m.sBytes + op.updVal := by
  cases op with
  | upd n t => exact update_fst_total expf m n t hact
  | stat t =>
      rw [step, statusOp_fst, Op.updVal]
      simpa using update_fst_total expf m 0 t hact
  | lim w r t =>
      rw [step, limit_nb_fst, Op.updVal]
      split
      · simp
      · simpa using update_fst_total expf m 0 t hact
  | fin t => exact absurd hnf (by simp [Op.noFin])

theorem step_sBytes_nonneg (expf : ℚ → ℚ) (m : Monitor) (op : Op)
    (hsb : 0 ≤ m.sBytes) (hOK : op.updOK) :
    0 ≤ (step expf m op).sBytes := by
  cases op with
  | upd n t => exact update_fst_sBytes_nonneg expf m n t hsb hOK
  | stat t => rw [step, statusOp_fst]; exact update_fst_sBytes_nonneg expf m 0 t hsb le_rfl
  | lim w r t =>
      rw [step, limit_nb_fst]
      split
      · exact hsb
      · exact update_fst_sBytes_nonneg expf m 0 t hsb le_rfl
  | fin t => exact done_fst_sBytes_nonneg expf m t hsb

theorem step_bytes_mono (expf : ℚ → ℚ) (m : Monitor) (op : Op)
    (hsb : 0 ≤ m.sBytes) (hOK : op.updOK) :
    m.bytes ≤ (step expf m op).bytes := by
  cases op with
  | upd n t => exact update_fst_bytes_mono expf m n t hsb hOK
  | stat t => rw [step, statusOp_fst]; exact update_fst_bytes_mono expf m 0 t hsb le_rfl
  | lim w r t =>
      rw [step, limit_nb_fst]
      split
      · exact le_refl m.bytes
      · exact update_fst_bytes_mono expf m 0 t hsb le_rfl
  | fin t => exact done_fst_bytes_mono expf m t hsb

theorem step_rPeak (expf : ℚ → ℚ) (m : Monitor) (op : Op) :
    (step expf m op).rPeak = (op.rates m).foldl max m.rPeak := by
  cases op with
  | upd n t => exact update_fst_rPeak expf m n t
  | stat t => rw [step, statusOp_fst, Op.rates]; exact update_fst_rPeak expf m 0 t
  | lim w r t =>
      rw [step, limit_nb_fst, Op.rates]
      split
      · simp
      · exact update_fst_rPeak expf m 0 t
  | fin t => rw [step, Op.rates]; exact done_fst_rPeak expf m t

theorem step_rPeak_mono (expf : ℚ → ℚ) (m : Monitor) (op : Op) :
    m.rPeak ≤ (step expf m op).rPeak := by
  rw [step_rPeak]
  exact le_foldl_max m.rPeak (op.rates m)

theorem op_rates_nonneg (m : Monitor) (op : Op)
    (hsb : 0 ≤ m.sBytes) (hOK : op.updOK) (hsr : 0 < m.sRate) :
    ∀ r ∈ op.rates m, 0 ≤ r := by
  cases op with
  | upd n t => exact rolloverRates_nonneg m n t hsb hOK hsr
  | stat t => exact rolloverRates_nonneg m 0 t hsb le_rfl hsr
  | lim w r t =>
      rw [Op.rates]
      split
      · simp
      · exact rolloverRates_nonneg m 0 t hsb le_rfl hsr
  | fin t => exact rolloverRates_nonneg m 0 t hsb le_rfl hsr

/-! ### Trace inductions -/

theorem run_inv (expf : ℚ → ℚ) :
    ∀ (ops : List Op) (m : Monitor), m.active = true → 0 ≤ m.sBytes →
      (∀ op ∈ ops, op.updOK) → (∀ op ∈ ops, op.noFin) →
      (run expf m ops).active = true ∧ 0 ≤ (run expf m ops).sBytes ∧
        (run expf m ops).bytes + (run expf m ops).sBytes
          = m.bytes + m.sBytes + updSum ops := by
  intro ops
  induction ops with
  | nil =>
      intro m hact hsb _ _
      refine ⟨hact, hsb, ?_⟩
      simp [run, updSum]
  | cons op ops ih =>
      intro m hact hsb hOK hnf
      have hOK1 : op.updOK := hOK op (by simp)
      have hnf1 : op.noFin := hnf op (by simp)
      have hact2 : (step expf m op).active = true := by
        rw [step_active expf m op hnf1]; exact hact
      have hsb2 : 0 ≤ (step expf m op).sBytes :=
        step_sBytes_nonneg expf m op hsb hOK1
      obtain ⟨a2, b2, c2⟩ := ih (step expf m op) hact2 hsb2
        (fun o ho => hOK o (by simp [ho])) (fun o ho => hnf o (by simp [ho]))
      refine ⟨a2, b2, ?_⟩
      rw [show run expf m (op :: ops) = run expf (step expf m op) ops from rfl, c2,
        step_total expf m op hact hnf1]
      simp [updSum]
      ring

theorem run_rPeak_inv (expf : ℚ → ℚ) :
    ∀ (ops : List Op) (m : Monitor), 0 ≤ m.sBytes → 0 < m.sRate →
      (∀ op ∈ ops, op.updOK) →
      0 ≤ (run expf m ops).sBytes ∧ (run expf m ops).sRate = m.sRate ∧
        (run expf m ops).rPeak = (traceRates expf m ops).foldl max m.rPeak ∧
        (∀ r ∈ traceRates expf m ops, 0 ≤ r) := by
  intro ops
  induction ops with
  | nil =>
      intro m hsb hsr _
      refine ⟨hsb, rfl, ?_, ?_⟩ <;> simp [run, traceRates]
  | cons op ops ih =>
      intro m hsb hsr hOK
      have hOK1 : op.updOK := hOK op (by simp)
      have hsb2 : 0 ≤ (step expf m op).sBytes :=
        step_sBytes_nonneg expf m op hsb hOK1
      have hsr2 : 0 < (step expf m op).sRate := by
        rw [step_sRate expf m op]; exact hsr
      obtain ⟨a2, b2, c2, d2⟩ := ih (step expf m op) hsb2 hsr2
        (fun o ho => hOK o (by simp [ho]))
      refine ⟨a2, ?_, ?_, ?_⟩
      · rw [show run expf m (op :: ops) = run expf (step expf m op) ops from rfl,
          b2, step_sRate expf m op]
      · rw [show run expf m (op :: ops) = run expf (step expf m op) ops from rfl,
          c2, show traceRates expf m (op :: ops)
            = op.rates m ++ traceRates expf (step expf m op) ops from rfl,
          List.foldl_append, step_rPeak expf m op]
      · intro r hr
        rw [show traceRates expf m (op :: ops)
            = op.rates m ++ traceRates expf (step expf m op) ops from rfl] at hr
        rcases List.mem_append.mp hr with h | h
        · exact op_rates_nonneg m op hsb hOK1 hsr r h
        · exact d2 r h

/-! ### Non-blocking `Limit` within one sampling period -/

theorem update_zero_no_roll (expf : ℚ → ℚ) (m : Monitor) (now : ℤ)
    (hact : m.active = true) (hnr : ¬ m.sRate ≤ now - m.sLast) :
    (m.update expf 0 now).1 = m := by
  rw [update_no_roll expf m 0 now hact hnr]
  show ({ m with sBytes := m.sBytes + 0 } : Monitor) = m
  cases m
  simp

theorem budget_pos (rate sRate : ℤ) : 1 ≤ budget rate sRate := by
  show (1 : ℤ) ≤ if goRound ((rate : ℚ) * secondsQ sRate) ≤ 0 then 1
    else goRound ((rate : ℚ) * secondsQ sRate)
  split
  · omega
  · next h => omega

theorem limit_nb_no_roll (expf : ℚ → ℚ) (m : Monitor) (want rate now : ℤ)
    (hact : m.active = true) (h1 : 1 ≤ want) (h2 : 1 ≤ rate)
    (hnr : ¬ m.sRate ≤ now - m.sLast) :
    m.limit expf want rate false now []
      = (m, max (min want (budget rate m.sRate - m.sBytes)) 0) := by
  unfold Monitor.limit
  rw [if_neg (by omega : ¬(want < 1 ∨ rate < 1))]
  simp only [update_zero_no_roll expf m now hact hnr, Bool.false_eq_true,
    if_false, hact, Prod.mk.injEq, true_and]
  split
  · next h =>
      rcases h with h | h
      · omega
      · simp at h
  · next h => omega

/-- The write/read usage protocol inside one period: each non-blocking
`Limit(want, rate)` result is immediately recorded with `Update` (as `IO`
does), at the same clock value. Returns the final state and the sum of the
returned allowances. -/
def limitThenUpdate (expf : ℚ → ℚ) (rate : ℤ) :
    Monitor → List (ℤ × ℤ) → Monitor × ℤ
  | m, [] => (m, 0)
  | m, wt :: rest =>
      let r := m.limit expf wt.1 rate false wt.2 []
      let m2 := (r.1.update expf r.2 wt.2).1
      let q := limitThenUpdate expf rate m2 rest
      (q.1, r.2 + q.2)

theorem limitThenUpdate_bound (expf : ℚ → ℚ) (rate : ℤ) (hr : 1 ≤ rate) :
    ∀ (steps : List (ℤ × ℤ)) (m : Monitor), m.active = true → 0 ≤ m.sBytes →
      (∀ wt ∈ steps, 0 ≤ wt.1 ∧ ¬ m.sRate ≤ wt.2 - m.sLast) →
      (limitThenUpdate expf rate m steps).2 + m.sBytes
          ≤ max (budget rate m.sRate) m.sBytes
        ∧ 0 ≤ (limitThenUpdate expf rate m steps).2 := by
  intro steps
  induction steps with
  | nil =>
      intro m hact hsb _
      constructor
      · simp only [limitThenUpdate, zero_add]
        exact le_max_right _ _
      · exact le_refl 0
  | cons wt rest ih =>
      intro m hact hsb hsteps
      obtain ⟨hw0, hnr⟩ := hsteps wt (by simp)
      by_cases hw1 : wt.1 < 1
      · have hw : wt.1 = 0 := by omega
        have hlim : m.limit expf wt.1 rate false wt.2 [] = (m, wt.1) := by
          unfold Monitor.limit
          rw [if_pos (Or.inl hw1)]
        have hupd : (m.update expf wt.1 wt.2).1 = m := by
          rw [hw]; exact update_zero_no_roll expf m wt.2 hact hnr
        obtain ⟨ihb, ihn⟩ := ih m hact hsb (fun x hx => hsteps x (by simp [hx]))
        constructor
        · show (m.limit expf wt.1 rate false wt.2 []).2
              + (limitThenUpdate expf rate
                  (((m.limit expf wt.1 rate false wt.2 []).1.update expf
                    (m.limit expf wt.1 rate false wt.2 []).2 wt.2).1) rest).2
              + m.sBytes ≤ max (budget rate m.sRate) m.sBytes
          rw [hlim]
          simp only [hupd]
          omega
        · show 0 ≤ (m.limit expf wt.1 rate false wt.2 []).2
              + (limitThenUpdate expf rate
                  (((m.limit expf wt.1 rate false wt.2 []).1.update expf
                    (m.limit expf wt.1 rate false wt.2 []).2 wt.2).1) rest).2
          rw [hlim]
          simp only [hupd]
          omega
      · have h1 : 1 ≤ wt.1 := by omega
        have hlim := limit_nb_no_roll expf m wt.1 rate wt.2 hact h1 hr hnr
        set n := max (min wt.1 (budget rate m.sRate - m.sBytes)) 0 with hn
        have hn0 : 0 ≤ n := le_max_right _ _
        have hnle : n ≤ max (budget rate m.sRate - m.sBytes) 0 := by
          rw [hn]; omega
        have hupd : ((m.limit expf wt.1 rate false wt.2 []).1.update expf
            (m.limit expf wt.1 rate false wt.2 []).2 wt.2).1
              = { m with sBytes := m.sBytes + n } := by
          rw [hlim]
          show (Monitor.update expf m n wt.2).1 = _
          rw [update_no_roll expf m n wt.2 hact hnr]
        have hact2 : ({ m with sBytes := m.sBytes + n } : Monitor).active = true := hact
        have hsb2 : 0 ≤ ({ m with sBytes := m.sBytes + n } : Monitor).sBytes := by
          show 0 ≤ m.sBytes + n
          omega
        obtain ⟨ihb, ihn⟩ := ih { m with sBytes := m.sBytes + n } hact2 hsb2
          (fun x hx => hsteps x (by simp [hx]))
        rw [show ({ m with sBytes := m.sBytes + n } : Monitor).sBytes
            = m.sBytes + n from rfl,
          show ({ m with sBytes := m.sBytes + n } : Monitor).sRate
            = m.sRate from rfl] at ihb
        constructor
        · show (m.limit expf wt.1 rate false wt.2 []).2
              + (limitThenUpdate expf rate
                  (((m.limit expf wt.1 rate false wt.2 []).1.update expf
                    (m.limit expf wt.1 rate false wt.2 []).2 wt.2).1) rest).2
              + m.sBytes ≤ max (budget rate m.sRate) m.sBytes
          rw [hupd, hlim]
          simp only [← hn]
          omega
        · show 0 ≤ (m.limit expf wt.1 rate false wt.2 []).2
              + (limitThenUpdate expf rate
                  (((m.limit expf wt.1 rate false wt.2 []).1.update expf
                    (m.limit expf wt.1 rate false wt.2 []).2 wt.2).1) rest).2
          rw [hupd, hlim]
          simp only [← hn]
          omega

/-! ### The blocking path of `Limit` -/

theorem blockLoop_not_entered (expf : ℚ → ℚ) (lim : ℤ) (m : Monitor)
    (wakes : List ℤ) (h : ¬(lim ≤ m.sBytes ∧ m.active = true)) :
    blockLoop expf lim m wakes = m := by
  cases wakes with
  | nil => rfl
  | cons t ts =>
      unfold blockLoop
      rw [if_neg h]

theorem blockLoop_cons (expf : ℚ → ℚ) (lim : ℤ) (m : Monitor) (t : ℤ)
    (ts : List ℤ) :
    blockLoop expf lim m (t :: ts)
      = if lim ≤ m.sBytes ∧ m.active = true then
          blockLoop expf lim ((m.update expf 0 t).1) ts
        else m := rfl

theorem blockLoop_exit (expf : ℚ → ℚ) (lim : ℤ) (hlim : 1 ≤ lim) :
    ∀ (wakes : List ℤ) (m : Monitor), m.active = true → 0 < m.sRate →
      0 ≤ m.sBytes → (∃ t ∈ wakes, m.sLast + m.sRate ≤ t) →
      (blockLoop expf lim m wakes).sBytes < lim ∧
      (blockLoop expf lim m wakes).active = true ∧
      (blockLoop expf lim m wakes).sRate = m.sRate ∧
      0 ≤ (blockLoop expf lim m wakes).sBytes := by
  intro wakes
  induction wakes with
  | nil =>
      intro m _ _ _ hex
      simp at hex
  | cons t ts ih =>
      intro m hact hsr hsb hex
      by_cases hc : lim ≤ m.sBytes ∧ m.active = true
      · rw [blockLoop_cons, if_pos hc]
        by_cases hroll : m.sRate ≤ t - m.sLast
        · have hu : (m.update expf 0 t).1.sBytes = 0 := by
            rw [update_roll expf m 0 t hact hroll]
          have hbl : blockLoop expf lim ((m.update expf 0 t).1) ts
              = (m.update expf 0 t).1 := by
            apply blockLoop_not_entered
            rintro ⟨hle, -⟩
            rw [hu] at hle
            omega
          rw [hbl, hu]
          refine ⟨by omega, ?_, ?_, le_refl 0⟩
          · rw [update_fst_active, hact]
          · exact update_fst_sRate expf m 0 t
        · have hm : (m.update expf 0 t).1 = m :=
            update_zero_no_roll expf m t hact hroll
          rw [hm]
          apply ih m hact hsr hsb
          obtain ⟨t0, ht0m, ht0⟩ := hex
          rcases List.mem_cons.mp ht0m with h | h
          · subst h
            omega
          · exact ⟨t0, h, ht0⟩
      · rw [blockLoop_not_entered expf lim m (t :: ts) hc]
        have hnle : ¬ lim ≤ m.sBytes := fun hle => hc ⟨hle, hact⟩
        exact ⟨by omega, hact, rfl, hsb⟩

/-- The value `Limit` computes from the post-wait state `m2` (flowcontrol.go
lines 190–199). -/
def limitVal (want lim : ℤ) (m2 : Monitor) : ℤ :=
  let l2 := lim - m2.sBytes
  let l3 := if want < l2 ∨ m2.active = false then want else l2
  if l3 < 0 then 0 else l3

theorem limit_block_eq (expf : ℚ → ℚ) (m : Monitor) (want rate now : ℤ)
    (wakes : List ℤ) (hwr : ¬(want < 1 ∨ rate < 1)) :
    m.limit expf want rate true now wakes
      = (blockLoop expf (budget rate m.sRate) ((m.update expf 0 now).1) wakes,
         limitVal want (budget rate m.sRate)
           (blockLoop expf (budget rate m.sRate) ((m.update expf 0 now).1)
             wakes)) := by
  unfold Monitor.limit limitVal
  rw [if_neg hwr]
  rfl

theorem limitVal_pos (want lim : ℤ) (m2 : Monitor) (h1 : 1 ≤ want)
    (_hB : 1 ≤ lim) (hA : m2.active = true) (hS : m2.sBytes < lim) :
    1 ≤ limitVal want lim m2 ∧ limitVal want lim m2 ≤ want := by
  unfold limitVal
  rw [hA]
  simp only [Bool.true_eq_false, or_false]
  constructor <;> split_ifs <;> omega

theorem limit_block_pos (expf : ℚ → ℚ) (m : Monitor) (want rate now : ℤ)
    (wakes : List ℤ) (hact : m.active = true) (h1 : 1 ≤ want) (h2 : 1 ≤ rate)
    (hsr : 0 < m.sRate) (hsb : 0 ≤ m.sBytes)
    (hwake : ∃ t ∈ wakes, m.sLast + m.sRate ≤ t) :
    1 ≤ (m.limit expf want rate true now wakes).2 ∧
    (m.limit expf want rate true now wakes).2 ≤ want ∧
    (m.limit expf want rate true now wakes).1.active = true ∧
    0 ≤ (m.limit expf want rate true now wakes).1.sBytes ∧
    (m.limit expf want rate true now wakes).1.sRate = m.sRate := by
  have hwr : ¬(want < 1 ∨ rate < 1) := by omega
  have hB := budget_pos rate m.sRate
  rw [limit_block_eq expf m want rate now wakes hwr]
  by_cases hroll : m.sRate ≤ now - m.sLast
  · have hu0 : (m.update expf 0 now).1.sBytes = 0 := by
      rw [update_roll expf m 0 now hact hroll]
    have hbl : blockLoop expf (budget rate m.sRate) ((m.update expf 0 now).1)
        wakes = (m.update expf 0 now).1 := by
      apply blockLoop_not_entered
      rintro ⟨hle, -⟩
      rw [hu0] at hle
      omega
    rw [hbl]
    have hua : (m.update expf 0 now).1.active = true := by
      rw [update_fst_active, hact]
    have hur : (m.update expf 0 now).1.sRate = m.sRate :=
      update_fst_sRate expf m 0 now
    obtain ⟨hv1, hv2⟩ := limitVal_pos want (budget rate m.sRate)
      ((m.update expf 0 now).1) h1 hB hua (by omega)
    refine ⟨hv1, hv2, hua, ?_, hur⟩
    show 0 ≤ (m.update expf 0 now).1.sBytes
    rw [hu0]
  · have hm : (m.update expf 0 now).1 = m :=
      update_zero_no_roll expf m now hact hroll
    rw [hm]
    obtain ⟨hS, hA, hR, hN⟩ := blockLoop_exit expf (budget rate m.sRate) hB
      wakes m hact hsr hsb hwake
    obtain ⟨hv1, hv2⟩ := limitVal_pos want (budget rate m.sRate)
      (blockLoop expf (budget rate m.sRate) m wakes) h1 hB hA hS
    exact ⟨hv1, hv2, hA, hN, hR⟩

/-! ### The blocking `Writer.Write` loop (io.go lines 75–88)

The underlying writer is assumed to accept everything it is given (the
claim's premise: no underlying I/O error), so `w.IO(w.Writer.Write(s))`
records `len(s)` bytes via `Update` and the loop advances by `len(s)`.
Each loop iteration needs a clock value for the `Limit` call, the wake-up
clock values of its blocking wait, and a clock value for the `Update` call:
one `ℤ × List ℤ × ℤ` schedule entry per iteration. The result is the final
state, the total byte count written, and whether `ErrLimit` was returned. -/

def writeB (expf : ℚ → ℚ) (rate : ℤ) :
    Monitor → ℕ → List (ℤ × List ℤ × ℤ) → Monitor × ℕ × Bool
  | m, 0, _ => (m, 0, false)
  | m, _+1, [] => (m, 0, false)
  | m, p+1, e :: es =>
      let r := m.limit expf ((p : ℤ) + 1) rate true e.1 e.2.1
      if r.2 ≤ 0 then (r.1, 0, true)
      else
        let m2 := (r.1.update expf r.2 e.2.2).1
        let q := writeB expf rate m2 (p + 1 - r.2.toNat) es
        (q.1, r.2.toNat + q.2.1, q.2.2)

/-- The schedule gives every iteration of the blocking write loop a wake-up
time at or past the next sample boundary, and is long enough. -/
def schedOK (expf : ℚ → ℚ) (rate : ℤ) :
    Monitor → ℕ → List (ℤ × List ℤ × ℤ) → Bool
  | _, 0, _ => true
  | _, _+1, [] => false
  | m, p+1, e :: es =>
      (e.2.1.any fun t => decide (m.sLast + m.sRate ≤ t)) &&
      (let r := m.limit expf ((p : ℤ) + 1) rate true e.1 e.2.1
       let m2 := (r.1.update expf r.2 e.2.2).1
       schedOK expf rate m2 (p + 1 - r.2.toNat) es)

theorem writeB_ok (expf : ℚ → ℚ) (rate : ℤ) (hr : 1 ≤ rate) :
    ∀ (sched : List (ℤ × List ℤ × ℤ)) (p : ℕ) (m : Monitor),
      m.active = true → 0 < m.sRate → 0 ≤ m.sBytes →
      schedOK expf rate m p sched = true →
      (writeB expf rate m p sched).2.1 = p ∧
      (writeB expf rate m p sched).2.2 = false := by
  intro sched
  induction sched with
  | nil =>
      intro p m _ _ _ hok
      cases p with
      | zero => exact ⟨rfl, rfl⟩
      | succ q => simp [schedOK] at hok
  | cons e es ih =>
      intro p m hact hsr hsb hok
      cases p with
      | zero => exact ⟨rfl, rfl⟩
      | succ q =>
          simp only [schedOK, Bool.and_eq_true, List.any_eq_true,
            decide_eq_true_eq] at hok
          obtain ⟨hwake, hrest⟩ := hok
          have hpos := limit_block_pos expf m ((q : ℤ) + 1) rate e.1 e.2.1
            hact (by omega) hr hsr hsb hwake
          obtain ⟨hv1, hv2, hA, hN, hR⟩ := hpos
          set r := m.limit expf ((q : ℤ) + 1) rate true e.1 e.2.1 with hrdef
          have hm2a : ((r.1.update expf r.2 e.2.2).1).active = true := by
            rw [update_fst_active, hA]
          have hm2r : 0 < ((r.1.update expf r.2 e.2.2).1).sRate := by
            rw [update_fst_sRate, hR]
            exact hsr
          have hm2s : 0 ≤ ((r.1.update expf r.2 e.2.2).1).sBytes :=
            update_fst_sBytes_nonneg expf r.1 r.2 e.2.2 hN (by omega)
          obtain ⟨ihc, ihe⟩ := ih (q + 1 - r.2.toNat)
            ((r.1.update expf r.2 e.2.2).1) hm2a hm2r hm2s hrest
          constructor
          · show (if r.2 ≤ 0 then (r.1, 0, true)
              else
                ((writeB expf rate ((r.1.update expf r.2 e.2.2).1)
                    (q + 1 - r.2.toNat) es).1,
                  r.2.toNat + (writeB expf rate ((r.1.update expf r.2 e.2.2).1)
                    (q + 1 - r.2.toNat) es).2.1,
                  (writeB expf rate ((r.1.update expf r.2 e.2.2).1)
                    (q + 1 - r.2.toNat) es).2.2)).2.1 = q + 1
            rw [if_neg (by omega : ¬ r.2 ≤ 0)]
            show r.2.toNat + (writeB expf rate ((r.1.update expf r.2 e.2.2).1)
                (q + 1 - r.2.toNat) es).2.1 = q + 1
            rw [ihc]
            omega
          · show (if r.2 ≤ 0 then (r.1, 0, true)
              else
                ((writeB expf rate ((r.1.update expf r.2 e.2.2).1)
                    (q + 1 - r.2.toNat) es).1,
                  r.2.toNat + (writeB expf rate ((r.1.update expf r.2 e.2.2).1)
                    (q + 1 - r.2.toNat) es).2.1,
                  (writeB expf rate ((r.1.update expf r.2 e.2.2).1)
                    (q + 1 - r.2.toNat) es).2.2)).2.2 = false
            rw [if_neg (by omega : ¬ r.2 ≤ 0)]
            exact ihe

/-! ### Rounding and exponential bounds -/

theorem goRound_half_up (x : ℚ) (hx : 0 ≤ x) : goRound x = ⌊x + 1/2⌋ := by
  unfold goRound qtrunc
  rw [if_pos hx]
  have hfl : (⌊x⌋ : ℚ) ≤ x := Int.floor_le x
  have hfu : x < ⌊x⌋ + 1 := Int.lt_floor_add_one x
  by_cases h : (1 : ℚ)/2 ≤ x - (⌊x⌋ : ℚ)
  · rw [if_pos h]
    have h2 : ⌊x + 1/2⌋ = ⌊x⌋ + 1 := by
      rw [Int.floor_eq_iff]
      constructor
      · push_cast
        linarith
      · push_cast
        linarith
    have h1 : ⌈x⌉ = ⌊x⌋ + 1 := by
      rw [Int.ceil_eq_iff]
      constructor
      · push_cast
        linarith
      · push_cast
        linarith
    rw [h1, h2]
  · rw [if_neg h]
    symm
    rw [Int.floor_eq_iff]
    constructor
    · linarith
    · linarith

/-- The mathematical exponential satisfies the bounds assumed of `expf` at
`-1/10` in the EMA scenario: `0.9 ≤ exp(-0.1) < 1` (so the float64
`math.Exp(-0.1) ≈ 0.9048` lies in the hypothesis range as well). -/
theorem exp_neg_tenth_bounds :
    (9 : ℝ)/10 ≤ Real.exp (-(1/10)) ∧ Real.exp (-(1/10)) < 1 := by
  constructor
  · have h := Real.add_one_le_exp (-(1/10) : ℝ)
    linarith
  · calc Real.exp (-(1/10 : ℝ)) < Real.exp 0 := Real.exp_lt_exp.2 (by norm_num)
      _ = 1 := Real.exp_zero

/-! ### Frozen monitors -/

theorem set_active_false_eq (m : Monitor) (h : m.active = false) :
    ({ m with active := false } : Monitor) = m := by
  cases m
  simp_all

theorem done_inactive (expf : ℚ → ℚ) (m : Monitor) (t : ℤ)
    (hA : m.active = false) (hS : m.sBytes ≤ 0) :
    m.done expf t = (m, m.bytes) := by
  simp only [Monitor.done, update_inactive expf m 0 t hA]
  rw [if_neg (by omega : ¬ (0 : ℤ) < m.sBytes)]
  rw [set_active_false_eq m hA]

/-! ### The non-blocking `Limit` value in closed form -/

theorem limit_nb_eq (expf : ℚ → ℚ) (m : Monitor) (want rate now : ℤ)
    (hwr : ¬(want < 1 ∨ rate < 1)) :
    m.limit expf want rate false now []
      = ((m.update expf 0 now).1,
         limitVal want (budget rate m.sRate) ((m.update expf 0 now).1)) := by
  unfold Monitor.limit limitVal
  rw [if_neg hwr]
  rfl

theorem limitVal_range (want lim : ℤ) (m2 : Monitor) (hw : 1 ≤ want) :
    0 ≤ limitVal want lim m2 ∧ limitVal want lim m2 ≤ want := by
  simp only [limitVal]
  by_cases hc : want < lim - m2.sBytes ∨ m2.active = false
  · rw [if_pos hc]
    constructor <;> split_ifs <;> omega
  · rw [if_neg hc]
    have hl2 : lim - m2.sBytes ≤ want := by
      by_contra hlt
      exact hc (Or.inl (by omega))
    constructor <;> split_ifs <;> omega

theorem new_sRate_pos (sr ws t0 : ℤ) : 0 < (Monitor.new sr ws t0).sRate := by
  show (0 : ℤ) < if clockRound sr ≤ 0 then 5 * clockRate else clockRound sr
  split
  · unfold clockRate
    omega
  · next h => omega

theorem new_active (sr ws t0 : ℤ) : (Monitor.new sr ws t0).active = true := rfl

instance : (op : Op) → Decidable op.updOK
  | .upd n _ => inferInstanceAs (Decidable (0 ≤ n))
  | .stat _ => inferInstanceAs (Decidable True)
  | .lim _ _ _ => inferInstanceAs (Decidable True)
  | .fin _ => inferInstanceAs (Decidable True)

instance : (op : Op) → Decidable op.noFin
  | .upd _ _ => inferInstanceAs (Decidable True)
  | .stat _ => inferInstanceAs (Decidable True)
  | .lim _ _ _ => inferInstanceAs (Decidable True)
  | .fin _ => inferInstanceAs (Decidable False)

theorem limit_fst_inactive (expf : ℚ → ℚ) (m : Monitor) (w r : ℤ) (b : Bool)
    (t : ℤ) (wk : List ℤ) (hA : m.active = false) :
    (m.limit expf w r b t wk).1 = m := by
  unfold Monitor.limit
  split
  · rfl
  · rw [update_inactive expf m 0 t hA]
    cases b
    · rfl
    · show blockLoop expf (budget r m.sRate) m wk = m
      apply blockLoop_not_entered
      rintro ⟨-, hc⟩
      rw [hA] at hc
      exact Bool.false_ne_true hc

theorem statusOp_inactive (expf : ℚ → ℚ) (m : Monitor) (t : ℤ)
    (hA : m.active = false) :
    (m.statusOp expf t).1 = m ∧ (m.statusOp expf t).2.Active = false ∧
    (m.statusOp expf t).2.InstRate = 0 ∧ (m.statusOp expf t).2.CurRate = 0 := by
  refine ⟨?_, ?_, ?_, ?_⟩ <;>
    simp only [Monitor.statusOp, update_inactive expf m 0 t hA, hA,
      Bool.false_eq_true, if_false] <;>
    first
    | rfl
    | (split <;> rfl)

/-! ### Claim theorems -/

/-- Claim C2 (amended): for every monitor state, every rate, clock value and
`expf`, a non-blocking `Limit(want, rate, false)` call with `want ≥ 0` returns
`n` with `0 ≤ n ≤ want`. (The unamended claim quantified over every `want`;
for `want < 0` the passthrough branch returns `want` itself, which is
negative.) -/
theorem c2_limit_range (expf : ℚ → ℚ) (m : Monitor) (want rate now : ℤ)
    (hw : 0 ≤ want) :
    0 ≤ (m.limit expf want rate false now []).2 ∧
    (m.limit expf want rate false now []).2 ≤ want := by
  by_cases hwr : want < 1 ∨ rate < 1
  · have h : m.limit expf want rate false now [] = (m, want) := by
      unfold Monitor.limit
      rw [if_pos hwr]
    rw [h]
    exact ⟨hw, le_refl want⟩
  · rw [limit_nb_eq expf m want rate now hwr]
    exact limitVal_range want (budget rate m.sRate)
      ((m.update expf 0 now).1) (by omega)

/-- Witness for C2 at a concrete input. -/
theorem c2_limit_range_witness :
    (0 : ℤ) ≤ 10 ∧
    (0 ≤ ((Monitor.new 100000000 1000000000 0).limit (fun _ => (0 : ℚ)) 10 100
        false 0 []).2 ∧
      ((Monitor.new 100000000 1000000000 0).limit (fun _ => (0 : ℚ)) 10 100
        false 0 []).2 ≤ 10) :=
  ⟨by decide, c2_limit_range (fun _ => (0 : ℚ))
    (Monitor.new 100000000 1000000000 0) 10 100 0 (by decide)⟩

/-- Claim C2, counterexample to the unamended claim: `Limit(-1, 5, false)`
returns `-1`, which is not in `[0, want]`. -/
theorem c2_counterexample :
    ((Monitor.new 100000000 1000000000 0).limit (fun _ => (0 : ℚ)) (-1) 5 false
        0 []).2 = -1 ∧
    ¬ (0 ≤ ((Monitor.new 100000000 1000000000 0).limit (fun _ => (0 : ℚ)) (-1)
        5 false 0 []).2) := by
  decide

/-- Claim C3 (amended): starting at a sample-period boundary (`sBytes = 0`) of
an active monitor, when every non-blocking `Limit(want, rate, false)` allowance
is immediately recorded with `Update` (the adapters' usage) and all calls fall
inside the same sampling period (no rollover), the allowances sum to at most
the per-period budget `round(rate * samplePeriodSeconds)` floored to `1`.
(The unamended claim bounded the sum of bare `Limit` calls, but `Limit` does
not consume budget: only `Update` advances `sBytes`.) -/
theorem c3_budget_bound (expf : ℚ → ℚ) (rate : ℤ) (m : Monitor)
    (steps : List (ℤ × ℤ)) (hr : 1 ≤ rate) (hact : m.active = true)
    (hsb : m.sBytes = 0)
    (hsteps : ∀ wt ∈ steps, 0 ≤ wt.1 ∧ ¬ m.sRate ≤ wt.2 - m.sLast) :
    (limitThenUpdate expf rate m steps).2 ≤ budget rate m.sRate := by
  obtain ⟨hb, hn⟩ := limitThenUpdate_bound expf rate hr steps m hact
    (by omega) hsteps
  have hB := budget_pos rate m.sRate
  omega

/-- Witness for C3 at a concrete input: two limit-then-update rounds of 10
bytes each against a budget of 10 sum to 10. -/
theorem c3_budget_bound_witness :
    ((1 : ℤ) ≤ 100 ∧ (Monitor.new 100000000 1000000000 0).active = true ∧
      (Monitor.new 100000000 1000000000 0).sBytes = 0 ∧
      (∀ wt ∈ ([(10, 0), (10, 0)] : List (ℤ × ℤ)), 0 ≤ wt.1 ∧
        ¬ (Monitor.new 100000000 1000000000 0).sRate
          ≤ wt.2 - (Monitor.new 100000000 1000000000 0).sLast)) ∧
    (limitThenUpdate (fun _ => (0 : ℚ)) 100 (Monitor.new 100000000 1000000000 0)
        [(10, 0), (10, 0)]).2
      ≤ budget 100 (Monitor.new 100000000 1000000000 0).sRate :=
  ⟨⟨by decide, rfl, rfl, by decide⟩,
   c3_budget_bound (fun _ => (0 : ℚ)) 100 (Monitor.new 100000000 1000000000 0)
     [(10, 0), (10, 0)] (by decide) rfl rfl (by decide)⟩

/-- Claim C3, counterexample to the unamended claim: two consecutive bare
non-blocking `Limit(10, 100, false)` calls in the same period each return 10,
summing to 20 > budget 10, because `Limit` alone does not consume budget. -/
theorem c3_counterexample :
    ((Monitor.new 100000000 1000000000 0).limit (fun _ => (0 : ℚ)) 10 100 false
        0 []).2
      + (((Monitor.new 100000000 1000000000 0).limit (fun _ => (0 : ℚ)) 10 100
          false 0 []).1.limit (fun _ => (0 : ℚ)) 10 100 false 0 []).2 = 20 ∧
    budget 100 (Monitor.new 100000000 1000000000 0).sRate = 10 ∧
    ¬ ((20 : ℤ) ≤ 10) := by
  have hsr : (Monitor.new 100000000 1000000000 0).sRate = 100000000 := by decide
  have hbud : budget 100 100000000 = 10 := by
    norm_num [budget, goRound, qtrunc, secondsQ]
  have h1 := limit_nb_no_roll (fun _ => (0 : ℚ))
    (Monitor.new 100000000 1000000000 0) 10 100 0 rfl (by norm_num) (by norm_num)
    (by decide)
  rw [hsr, hbud] at h1
  have hsb : (Monitor.new 100000000 1000000000 0).sBytes = 0 := rfl
  rw [hsb] at h1
  norm_num at h1
  rw [h1]
  refine ⟨?_, ?_, by norm_num⟩
  · show (10 : ℤ) + ((Monitor.new 100000000 1000000000 0).limit
      (fun _ => (0 : ℚ)) 10 100 false 0 []).2 = 20
    rw [h1]
    norm_num
  · rw [hsr, hbud]

/-- Claim C5 (amended): `Done` folds any pending bytes into the lifetime
totals, marks the monitor inactive and returns the lifetime byte count; but
when no full sample period has elapsed at the time of the call, the rate
statistics (`rSample`, `rEMA`, `rPeak`) are left untouched — the pending bytes
of the incomplete final sample count toward the totals only, not toward the
rates. -/
theorem c5_done_folds_pending (expf : ℚ → ℚ) (m : Monitor) (now : ℤ)
    (hact : m.active = true) (hsb : 0 ≤ m.sBytes) :
    (m.done expf now).2 = m.bytes + m.sBytes ∧
    ((m.done expf now).1).active = false ∧
    (¬ m.sRate ≤ now - m.sLast →
      ((m.done expf now).1).rSample = m.rSample ∧
      ((m.done expf now).1).rEMA = m.rEMA ∧
      ((m.done expf now).1).rPeak = m.rPeak) := by
  refine ⟨done_total expf m now hact hsb, done_fst_active expf m now, ?_⟩
  intro hnr
  simp only [Monitor.done, update_no_roll expf m 0 now hact hnr, Monitor.reset]
  refine ⟨?_, ?_, ?_⟩ <;> split <;> rfl

/-- Witness for C5 at a concrete input: 1000 pending bytes, `Done` called
20ms into a 100ms sample period. -/
theorem c5_done_folds_pending_witness :
    ((((Monitor.new 100000000 1000000000 0).update (fun _ => (0 : ℚ)) 1000
        0).1).active = true ∧
      0 ≤ (((Monitor.new 100000000 1000000000 0).update (fun _ => (0 : ℚ)) 1000
        0).1).sBytes) ∧
    ((((Monitor.new 100000000 1000000000 0).update (fun _ => (0 : ℚ)) 1000
          0).1).done (fun _ => (0 : ℚ)) 20000000).2
      = (((Monitor.new 100000000 1000000000 0).update (fun _ => (0 : ℚ)) 1000
          0).1).bytes
        + (((Monitor.new 100000000 1000000000 0).update (fun _ => (0 : ℚ)) 1000
          0).1).sBytes :=
  ⟨⟨by decide, by decide⟩,
   (c5_done_folds_pending (fun _ => (0 : ℚ))
     (((Monitor.new 100000000 1000000000 0).update (fun _ => (0 : ℚ)) 1000 0).1)
     20000000 (by decide) (by decide)).1⟩

/-- Claim C5, counterexample to the unamended claim: with 1000 bytes pending
and `Done` called 20ms into the period, the returned total is 1000 (the
pending bytes count toward the totals) but `instRate`, `emaRate` and
`peakRate` all remain 0 — the forced fold does not recompute the rate
statistics, contrary to the claim. -/
theorem c5_counterexample :
    ((((Monitor.new 100000000 1000000000 0).update (fun _ => (0 : ℚ)) 1000
        0).1).done (fun _ => (0 : ℚ)) 20000000).2 = 1000 ∧
    (((((Monitor.new 100000000 1000000000 0).update (fun _ => (0 : ℚ)) 1000
        0).1).done (fun _ => (0 : ℚ)) 20000000).1).rPeak = 0 ∧
    (((((Monitor.new 100000000 1000000000 0).update (fun _ => (0 : ℚ)) 1000
        0).1).done (fun _ => (0 : ℚ)) 20000000).1).rSample = 0 ∧
    (((((Monitor.new 100000000 1000000000 0).update (fun _ => (0 : ℚ)) 1000
        0).1).done (fun _ => (0 : ℚ)) 20000000).1).rEMA = 0 := by
  decide

/-- Claim C6: `Done` is idempotent — a second call is a no-op on the state and
returns the same total byte count as the first. -/
theorem c6_done_idempotent (expf : ℚ → ℚ) (m : Monitor) (t1 t2 : ℤ) :
    ((m.done expf t1).1).done expf t2 = m.done expf t1 := by
  rw [done_inactive expf (m.done expf t1).1 t2 (done_fst_active expf m t1)
    (done_fst_sBytes_nonpos expf m t1)]
  exact Prod.ext rfl (done_snd expf m t1).symm

/-- Claim C7: after `Done`, every subsequent `Update`, `Limit` (blocking or
not) or `Status` call leaves the whole monitor state unchanged, and `Status`
reports `Active = false`, `InstRate = 0`, `CurRate = 0`. -/
theorem c7_frozen_after_done (expf : ℚ → ℚ) (m : Monitor) (t0 : ℤ) :
    (∀ n t, (((m.done expf t0).1).update expf n t).1 = (m.done expf t0).1) ∧
    (∀ w r t, ∀ b : Bool, ∀ wk : List ℤ,
      (((m.done expf t0).1).limit expf w r b t wk).1 = (m.done expf t0).1) ∧
    (∀ t, (((m.done expf t0).1).statusOp expf t).1 = (m.done expf t0).1 ∧
      (((m.done expf t0).1).statusOp expf t).2.Active = false ∧
      (((m.done expf t0).1).statusOp expf t).2.InstRate = 0 ∧
      (((m.done expf t0).1).statusOp expf t).2.CurRate = 0) := by
  have hA := done_fst_active expf m t0
  refine ⟨?_, ?_, ?_⟩
  · intro n t
    rw [update_inactive expf _ n t hA]
  · intro w r t b wk
    exact limit_fst_inactive expf _ w r b t wk hA
  · intro t
    exact statusOp_inactive expf _ t hA

/-- Claim C1 (amended): over any trace of `Update(n ≥ 0)`, `Status`, and
non-blocking `Limit` operations on an active monitor (no `Done` inside the
trace), the lifetime sum `bytes + sBytes` equals the sum of all `n` passed;
`Done` called at any time returns exactly that sum; and `bytes` (the
`totalBytes` that `Status` reports) is never decremented by any further
operation. (The unamended claim said `Status` itself already reports the full
sum, but `Status` reports `bytes` only: bytes still pending in the current
sample are excluded until a rollover or `Done` folds them.) -/
theorem c1_total_bytes_accounting (expf : ℚ → ℚ) (sr ws t0 : ℤ)
    (ops : List Op) (hOK : ∀ op ∈ ops, op.updOK)
    (hnf : ∀ op ∈ ops, op.noFin) :
    (run expf (Monitor.new sr ws t0) ops).bytes
        + (run expf (Monitor.new sr ws t0) ops).sBytes = updSum ops ∧
    (∀ t, ((run expf (Monitor.new sr ws t0) ops).done expf t).2 = updSum ops) ∧
    (∀ op, op.updOK → (run expf (Monitor.new sr ws t0) ops).bytes
        ≤ (step expf (run expf (Monitor.new sr ws t0) ops) op).bytes) := by
  obtain ⟨ha, hb, hc⟩ := run_inv expf ops (Monitor.new sr ws t0)
    (new_active sr ws t0) (le_refl 0) hOK hnf
  have hzero : (Monitor.new sr ws t0).bytes + (Monitor.new sr ws t0).sBytes
      = 0 := rfl
  refine ⟨by omega, ?_, ?_⟩
  · intro t
    rw [done_total expf _ t ha hb]
    omega
  · intro op hop
    exact step_bytes_mono expf _ op hb hop

/-- Witness for C1 at a concrete trace. -/
theorem c1_total_bytes_accounting_witness :
    ((∀ op ∈ ([Op.upd 5 0, Op.stat 0, Op.upd 3 0, Op.lim 4 100 0] : List Op),
        op.updOK) ∧
      (∀ op ∈ ([Op.upd 5 0, Op.stat 0, Op.upd 3 0, Op.lim 4 100 0] : List Op),
        op.noFin)) ∧
    (run (fun _ => (0 : ℚ)) (Monitor.new 100000000 1000000000 0)
        [Op.upd 5 0, Op.stat 0, Op.upd 3 0, Op.lim 4 100 0]).bytes
      + (run (fun _ => (0 : ℚ)) (Monitor.new 100000000 1000000000 0)
        [Op.upd 5 0, Op.stat 0, Op.upd 3 0, Op.lim 4 100 0]).sBytes
      = updSum [Op.upd 5 0, Op.stat 0, Op.upd 3 0, Op.lim 4 100 0] :=
  ⟨⟨by decide, by decide⟩,
   (c1_total_bytes_accounting (fun _ => (0 : ℚ)) 100000000 1000000000 0
     [Op.upd 5 0, Op.stat 0, Op.upd 3 0, Op.lim 4 100 0]
     (by decide) (by decide)).1⟩

/-- Claim C1, counterexample to the unamended claim: `Update(5)` immediately
followed by `Status` (no rollover has happened) reports `Bytes = 0`, not the
sum 5 — the 5 bytes are still pending in the current sample. -/
theorem c1_counterexample :
    ((((Monitor.new 100000000 1000000000 0).update (fun _ => (0 : ℚ)) 5
        0).1).statusOp (fun _ => (0 : ℚ)) 0).2.Bytes = 0 ∧
    updSum [Op.upd 5 0] = 5 ∧ ((0 : ℤ) ≠ 5) := by
  decide

/-- Claim C8: starting from a fresh monitor, along any trace of operations
whose `Update` arguments are non-negative (`Done` allowed), `rPeak` equals the
maximum over all instantaneous rates computed at rollovers so far (`0` before
the first rollover, here `foldl max 0`), all those rates are non-negative, and
`rPeak` never decreases at any further operation. -/
theorem c8_peak_rate (expf : ℚ → ℚ) (sr ws t0 : ℤ) (ops : List Op)
    (hOK : ∀ op ∈ ops, op.updOK) :
    (run expf (Monitor.new sr ws t0) ops).rPeak
        = (traceRates expf (Monitor.new sr ws t0) ops).foldl max 0 ∧
    (∀ r ∈ traceRates expf (Monitor.new sr ws t0) ops, 0 ≤ r) ∧
    (∀ op, (run expf (Monitor.new sr ws t0) ops).rPeak
        ≤ (step expf (run expf (Monitor.new sr ws t0) ops) op).rPeak) := by
  obtain ⟨ha, hb, hc, hd⟩ := run_rPeak_inv expf ops (Monitor.new sr ws t0)
    (le_refl 0) (new_sRate_pos sr ws t0) hOK
  refine ⟨?_, hd, fun op => step_rPeak_mono expf _ op⟩
  rw [hc]
  rfl

/-- Witness for C8 at a concrete trace with one rollover and a `Done`. -/
theorem c8_peak_rate_witness :
    (∀ op ∈ ([Op.upd 1000 0, Op.upd 0 100000000, Op.fin 150000000] : List Op),
      op.updOK) ∧
    (run (fun _ => (0 : ℚ)) (Monitor.new 100000000 1000000000 0)
        [Op.upd 1000 0, Op.upd 0 100000000, Op.fin 150000000]).rPeak
      = (traceRates (fun _ => (0 : ℚ)) (Monitor.new 100000000 1000000000 0)
          [Op.upd 1000 0, Op.upd 0 100000000, Op.fin 150000000]).foldl max 0 :=
  ⟨by decide,
   (c8_peak_rate (fun _ => (0 : ℚ)) 100000000 1000000000 0
     [Op.upd 1000 0, Op.upd 0 100000000, Op.fin 150000000] (by decide)).1⟩

/-- The spec's Scenario A, first sample: a monitor with sample period 100ms
and window 1s, 1000 bytes recorded at clock 0, rolled over by `update(0)` at
clock 100ms. -/
def c4Mid (expf : ℚ → ℚ) : Monitor :=
  (((Monitor.new 100000000 1000000000 0).update expf 1000 0).1.update expf 0
    100000000).1

/-- The spec's Scenario A, second sample: 500 further bytes recorded at clock
100ms, rolled over by `update(0)` at clock 200ms. -/
def c4Final (expf : ℚ → ℚ) : Monitor :=
  (((c4Mid expf).update expf 500 100000000).1.update expf 0 200000000).1

theorem emaScenario_eval (expf : ℚ → ℚ) :
    (c4Mid expf).rSample = 10000 ∧ (c4Mid expf).rEMA = 10000 ∧
    (c4Final expf).rSample = 5000 ∧
    (c4Final expf).rEMA = 5000 + expf (-(1/10 : ℚ)) * 5000 := by
  have ht : clockRound 100000000 = 100000000 := by decide
  have e0 : Monitor.new 100000000 1000000000 0
      = { active := true, start := 0, bytes := 0, samples := 0, rSample := 0,
          rEMA := 0, rPeak := 0, rWindow := 1, sBytes := 0, sLast := 0,
          sRate := 100000000 } := by
    unfold Monitor.new
    rw [ht]
    norm_num [secondsQ]
  have h1 : ((Monitor.new 100000000 1000000000 0).update expf 1000 0).1
      = { active := true, start := 0, bytes := 0, samples := 0, rSample := 0,
          rEMA := 0, rPeak := 0, rWindow := 1, sBytes := 1000, sLast := 0,
          sRate := 100000000 } := by
    rw [e0, update_no_roll expf _ 1000 0 rfl (by decide)]
    norm_num
  have h2 : c4Mid expf
      = { active := true, start := 0, bytes := 1000, samples := 1,
          rSample := 10000, rEMA := 10000, rPeak := 10000, rWindow := 1,
          sBytes := 0, sLast := 100000000, sRate := 100000000 } := by
    show (((Monitor.new 100000000 1000000000 0).update expf 1000 0).1.update
      expf 0 100000000).1 = _
    rw [h1, update_roll expf _ 0 100000000 rfl (by decide)]
    norm_num [secondsQ]
  have h3 : ((c4Mid expf).update expf 500 100000000).1
      = { active := true, start := 0, bytes := 1000, samples := 1,
          rSample := 10000, rEMA := 10000, rPeak := 10000, rWindow := 1,
          sBytes := 500, sLast := 100000000, sRate := 100000000 } := by
    rw [h2, update_no_roll expf _ 500 100000000 rfl (by decide)]
    norm_num
  have h4 : c4Final expf
      = { active := true, start := 0, bytes := 1500, samples := 2,
          rSample := 5000, rEMA := 5000 + expf (-(1/10 : ℚ)) * 5000,
          rPeak := 10000, rWindow := 1, sBytes := 0, sLast := 200000000,
          sRate := 100000000 } := by
    show (((c4Mid expf).update expf 500 100000000).1.update expf 0
      200000000).1 = _
    rw [h3, update_roll expf _ 0 200000000 rfl (by decide)]
    norm_num [secondsQ]
  exact ⟨by rw [h2], by rw [h2], by rw [h4], by rw [h4]⟩

/-- Claim C4 (amended): at every rollover with elapsed seconds `t`,
`instRate = pendingBytes / t`; on the first rollover ever `emaRate = instRate`;
on every later rollover `emaRate = instRate*(1-w) + emaRate_old*w` with
`w = exp(-t / emaWindowSeconds)`. With period 100ms and window 1s, a first
sample of 1000 bytes over one period yields `instRate = curRate = 10000`, and
a second sample of 500 bytes over one period yields `instRate = 5000` and
`curRate = 5000 + 5000·w = 5000·(1-w) + 10000·w ≈ 9524` (between 9500 and
10000 for any `w ∈ [0.9, 1]`, the range containing `exp(-0.1) ≈ 0.9048`) —
not `≈ 5476` as the unamended claim computed by swapping the weights. -/
theorem c4_ema_rollover (expf : ℚ → ℚ) (m : Monitor) (n now : ℤ)
    (hact : m.active = true) (hroll : m.sRate ≤ now - m.sLast)
    (h9 : (9 : ℚ)/10 ≤ expf (-(1/10 : ℚ))) (h1s : expf (-(1/10 : ℚ)) ≤ 1) :
    (((m.update expf n now).1).rSample
        = ((m.sBytes + n : ℤ) : ℚ) / secondsQ (now - m.sLast) ∧
      ((m.update expf n now).1).rEMA
        = (if 0 < m.samples then
            ((m.sBytes + n : ℤ) : ℚ) / secondsQ (now - m.sLast)
              * (1 - expf (-(secondsQ (now - m.sLast) / m.rWindow)))
              + m.rEMA * expf (-(secondsQ (now - m.sLast) / m.rWindow))
          else ((m.sBytes + n : ℤ) : ℚ) / secondsQ (now - m.sLast))) ∧
    ((c4Mid expf).rSample = 10000 ∧ (c4Mid expf).rEMA = 10000 ∧
      (c4Final expf).rSample = 5000 ∧
      (c4Final expf).rEMA
        = 5000 * (1 - expf (-(1/10 : ℚ))) + 10000 * expf (-(1/10 : ℚ)) ∧
      9500 ≤ (c4Final expf).rEMA ∧ (c4Final expf).rEMA ≤ 10000) := by
  obtain ⟨hm1, hm2, hf1, hf2⟩ := emaScenario_eval expf
  constructor
  · rw [update_roll expf m n now hact hroll]
    refine ⟨rfl, ?_⟩
    show (if 0 < m.samples then _ else _) = _
    split <;> ring
  · refine ⟨hm1, hm2, hf1, by rw [hf2]; ring, ?_, ?_⟩
    · rw [hf2]
      linarith
    · rw [hf2]
      linarith

/-- Witness for C4 at a concrete input: the constant weight function
`w = 9/10` (a value the real `exp(-0.1) ≈ 0.9048` bound admits), with the
rollover hypothesis discharged on a fresh monitor at clock 100ms. -/
theorem c4_ema_rollover_witness :
    ((Monitor.new 100000000 1000000000 0).active = true ∧
      (Monitor.new 100000000 1000000000 0).sRate
        ≤ 100000000 - (Monitor.new 100000000 1000000000 0).sLast ∧
      (9 : ℚ)/10 ≤ (fun _ : ℚ => (9 : ℚ)/10) (-(1/10 : ℚ)) ∧
      (fun _ : ℚ => (9 : ℚ)/10) (-(1/10 : ℚ)) ≤ 1) ∧
    9500 ≤ (c4Final (fun _ : ℚ => (9 : ℚ)/10)).rEMA :=
  ⟨⟨rfl, by decide, by norm_num, by norm_num⟩,
   (c4_ema_rollover (fun _ : ℚ => (9 : ℚ)/10)
     (Monitor.new 100000000 1000000000 0) 0 100000000 rfl (by decide)
     (by norm_num) (by norm_num)).2.2.2.2.2.1⟩

/-- Claim C4, counterexample to the unamended claim: with the weight
`w = 0.9048374180359595` (the float64 value of `exp(-0.1)`; the real
`exp(-0.1)` lies in `[0.9, 1)` by `exp_neg_tenth_bounds`), the second-sample
`curRate` is ≈ 9524.19 — it is not within 1000 of the claimed 5476. -/
theorem c4_counterexample :
    (c4Final (fun _ : ℚ =>
        (9048374180359595 : ℚ)/10000000000000000)).rSample = 5000 ∧
    9524 ≤ (c4Final (fun _ : ℚ =>
        (9048374180359595 : ℚ)/10000000000000000)).rEMA ∧
    (c4Final (fun _ : ℚ =>
        (9048374180359595 : ℚ)/10000000000000000)).rEMA < 9525 ∧
    ¬ ((c4Final (fun _ : ℚ =>
        (9048374180359595 : ℚ)/10000000000000000)).rEMA < 5476 + 1000) := by
  obtain ⟨-, -, hf1, hf2⟩ := emaScenario_eval
    (fun _ : ℚ => (9048374180359595 : ℚ)/10000000000000000)
  refine ⟨hf1, ?_, ?_, ?_⟩ <;>
    · rw [hf2]
      norm_num

/-- Claim C10: in the `Status` value, `AvgRate` equals
`round(Bytes / Duration.Seconds())` whenever `Duration > 0` and `0` otherwise;
and for non-negative arguments the rounding is round-half-up,
`round x = ⌊x + 1/2⌋`. -/
theorem c10_avg_rate (expf : ℚ → ℚ) (m : Monitor) (now : ℤ) (x : ℚ)
    (hx : 0 ≤ x) :
    ((m.statusOp expf now).2.AvgRate
      = if 0 < (m.statusOp expf now).2.Duration then
          goRound (((m.statusOp expf now).2.Bytes : ℚ)
            / secondsQ (m.statusOp expf now).2.Duration)
        else 0) ∧
    goRound x = ⌊x + 1/2⌋ := by
  constructor
  · simp only [Monitor.statusOp]
    split
    · split <;> rfl
    · split <;> rfl
  · exact goRound_half_up x hx

/-- Witness for C10 at a concrete input, with `x = 5/2` rounding up to 3. -/
theorem c10_avg_rate_witness :
    (0 : ℚ) ≤ 5/2 ∧ goRound (5/2) = ⌊(5/2 : ℚ) + 1/2⌋ :=
  ⟨by norm_num,
   (c10_avg_rate (fun _ => (0 : ℚ)) (Monitor.new 0 0 0) 0 (5/2)
     (by norm_num)).2⟩

/-- Claim C9: while the monitor is active with blocking enabled, a
`Limit(want ≥ 1, rate ≥ 1, true)` call whose wait loop is given a wake-up
clock value at or past the next sample boundary returns a strictly positive
allowance of at most `want`; consequently the blocking `Writer.Write` loop
(underlying writer accepting all bytes, i.e. no underlying I/O error), run on
a schedule giving each iteration such a wake-up, writes all `p` bytes and
never returns the rate-limit-exceeded error. -/
theorem c9_blocking_progress (expf : ℚ → ℚ) (m : Monitor) (want rate now : ℤ)
    (wakes : List ℤ) (p : ℕ) (sched : List (ℤ × List ℤ × ℤ))
    (hact : m.active = true) (h1 : 1 ≤ want) (hr : 1 ≤ rate)
    (hsr : 0 < m.sRate) (hsb : 0 ≤ m.sBytes)
    (hwake : ∃ t ∈ wakes, m.sLast + m.sRate ≤ t)
    (hsched : schedOK expf rate m p sched = true) :
    (1 ≤ (m.limit expf want rate true now wakes).2 ∧
      (m.limit expf want rate true now wakes).2 ≤ want) ∧
    ((writeB expf rate m p sched).2.1 = p ∧
      (writeB expf rate m p sched).2.2 = false) := by
  obtain ⟨a, b, -, -, -⟩ := limit_block_pos expf m want rate now wakes hact h1
    hr hsr hsb hwake
  exact ⟨⟨a, b⟩, writeB_ok expf rate hr sched p m hact hsr hsb hsched⟩

/-- Witness for C9 at a concrete input: a fresh monitor, a blocking
`Limit(50, 10, true)` call with a wake-up at the first sample boundary. -/
theorem c9_blocking_progress_witness :
    ((Monitor.new 100000000 1000000000 0).active = true ∧
      (1 : ℤ) ≤ 50 ∧ (1 : ℤ) ≤ 10 ∧
      (0 : ℤ) < (Monitor.new 100000000 1000000000 0).sRate ∧
      (0 : ℤ) ≤ (Monitor.new 100000000 1000000000 0).sBytes ∧
      (∃ t ∈ ([100000000] : List ℤ),
        (Monitor.new 100000000 1000000000 0).sLast
          + (Monitor.new 100000000 1000000000 0).sRate ≤ t) ∧
      schedOK (fun _ => (0 : ℚ)) 10 (Monitor.new 100000000 1000000000 0) 0 []
        = true) ∧
    1 ≤ ((Monitor.new 100000000 1000000000 0).limit (fun _ => (0 : ℚ)) 50 10
      true 0 [100000000]).2 :=
  ⟨⟨rfl, by decide, by decide, by decide, by decide, by decide, rfl⟩,
   (c9_blocking_progress (fun _ => (0 : ℚ))
     (Monitor.new 100000000 1000000000 0) 50 10 0 [100000000] 0 []
     rfl (by decide) (by decide) (by decide) (by decide) (by decide)
     rfl).1.1⟩

end Flowcontrol

